import Mathlib

/-!
# CryptoSim — Trading Ledger & Market Ranking Engine: shallow embedding

This file embeds the ledger/trading/ranking core of `src/main.py`
(`CryptoSimApp`) in Lean 4 and proves the specified properties.

Modelling choices:
* USD amounts and coin quantities are `ℚ` (the Python source uses binary
  floats; all the concrete values appearing in the spec's examples are exact
  in both representations, and the comparisons in the code are raw
  comparisons, faithfully mirrored on `ℚ`).
* A Python `dict` (`self.holdings`) is an insertion-ordered association list
  with unique keys: lookup scans from the front, assignment to an existing
  key updates it in place, assignment to a fresh key appends at the back.
* An activity tuple `(icon, desc, color)` is modelled as `(desc, color)`;
  the icon is a UI image object.  `color = "green"` is a Credit entry,
  `color = "red"` a Debit entry, as rendered by the dashboard.
* Python exceptions that escape `execute_trade` (the `KeyError` raised by
  `self.holdings[sym] -= qty` on a missing key) are modelled as a dedicated
  `keyError` outcome with the state unchanged, since the statement raises
  before any assignment happens.
-/

namespace CryptoSim

/-- Characters stripped by Python's `str.strip()` (the whitespace set
relevant to the queries in this program). -/
def pyIsSpace (c : Char) : Bool :=
  c = ' ' || c = '\t' || c = '\n' || c = '\x0d' || c = '\x0b' || c = '\x0c'

/-- Python `str.strip()`: drop leading and trailing whitespace. -/
def pyStrip (s : String) : String :=
  String.mk (((s.data.dropWhile pyIsSpace).reverse.dropWhile pyIsSpace).reverse)

/-- Python `str.lower()` restricted to ASCII (sufficient for the data in
this program). -/
def pyLower (s : String) : String :=
  String.mk (s.data.map Char.toLower)

/-- `listPrefixOf n h` : does `h` start with `n`? -/
def listPrefixOf : List Char → List Char → Bool
  | [], _ => true
  | _ :: _, [] => false
  | a :: n, b :: h => a = b && listPrefixOf n h

/-- `listSub n h` : does `n` occur in `h` as a contiguous sublist?
This is the `in` operator of Python on strings. -/
def listSub (n : List Char) : List Char → Bool
  | [] => listPrefixOf n []
  | b :: h => listPrefixOf n (b :: h) || listSub n h

/-- Python `needle in hay` on strings. -/
def strIn (needle hay : String) : Bool :=
  listSub needle.data hay.data

/-- Fixed-point decimal rendering `f"{q:.d}"`: round to `d` decimal digits
and print with exactly `d` digits after the point.  (On the exact decimal
values this development evaluates it on, every rounding convention agrees,
so `round` — nearest, ties away from zero halves up — is a faithful stand-in
for Python's float formatting.) -/
def formatFixed (q : ℚ) (d : ℕ) : String :=
  let scaled : ℤ := round (|q| * ((10 ^ d : ℕ) : ℚ))
  let ip : ℕ := (scaled / ((10 ^ d : ℕ) : ℤ)).toNat
  let fp : ℕ := (scaled % ((10 ^ d : ℕ) : ℤ)).toNat
  let fs : String := toString fp
  let pad : String := String.mk (List.replicate (d - fs.length) '0')
  let sign : String := if q < 0 ∧ scaled ≠ 0 then "-" else ""
  if d = 0 then sign ++ toString ip
  else sign ++ toString ip ++ "." ++ pad ++ fs

/-- One activity-log tuple `(desc, color)` (the icon component of the
Python tuple is a UI object and is omitted). -/
structure ActivityEntry where
  description : String
  color : String
  deriving Repr, DecidableEq, Inhabited

/-- A holdings dictionary: insertion-ordered association list,
unique keys by construction of the operations below. -/
abbrev Holdings := List (String × ℚ)

/-- Python `k in d` / `d[k]` lookup: `some value` when present. -/
def dictFind (d : Holdings) (k : String) : Option ℚ :=
  match d with
  | [] => none
  | p :: rest => if p.1 = k then some p.2 else dictFind rest k

/-- Python `d.get(k, default)`. -/
def dictGet (d : Holdings) (k : String) (default : ℚ) : ℚ :=
  match dictFind d k with
  | some v => v
  | none => default

/-- Python `d[k] = v`: update in place when the key exists,
append at the back otherwise (dict insertion order). -/
def dictSet (d : Holdings) (k : String) (v : ℚ) : Holdings :=
  match d with
  | [] => [(k, v)]
  | p :: rest => if p.1 = k then (k, v) :: rest else p :: dictSet rest k v

/-- `self.activity.insert(0, e)` followed by
`if len(self.activity) > 5: self.activity.pop()` — the bounded
most-recent-first log discipline shared by deposit, withdraw and
`execute_trade`. -/
def recordActivity (l : List ActivityEntry) (e : ActivityEntry) : List ActivityEntry :=
  let l2 := e :: l
  if l2.length > 5 then l2.dropLast else l2

/-- Repeated recording into an initially empty activity log. -/
def applyRecords (es : List ActivityEntry) : List ActivityEntry :=
  es.foldl recordActivity []

/-- The per-account mutable state of `CryptoSimApp`:
`self.current_balance`, `self.holdings`, `self.activity`. -/
structure AccountState where
  current_balance : ℚ
  holdings : Holdings
  activity : List ActivityEntry
  deriving Repr, DecidableEq

/-- `CryptoSimApp.deposit` (the ledger part: dialog and rendering
omitted).  `amount is None or amount <= 0` aborts with no mutation. -/
def deposit (s : AccountState) (amount : ℚ) : AccountState :=
  if amount ≤ 0 then s
  else
    { s with
      current_balance := s.current_balance + amount
      activity := recordActivity s.activity
        ⟨"Deposited $" ++ formatFixed amount 2 ++ " USD", "green"⟩ }

/-- `CryptoSimApp.withdraw` (the ledger part).  Non-positive amounts and
amounts above the balance abort with no mutation. -/
def withdraw (s : AccountState) (amount : ℚ) : AccountState :=
  if amount ≤ 0 then s
  else if amount > s.current_balance then s
  else
    { s with
      current_balance := s.current_balance - amount
      activity := recordActivity s.activity
        ⟨"Withdrew $" ++ formatFixed amount 2 ++ " USD", "red"⟩ }

/-- Trade side, the `action` string of `execute_trade`. -/
inductive Action where
  | Buy
  | Sell
  deriving Repr, DecidableEq

/-- Outcome of `execute_trade`: success, one of the two rejection
dialogs, or the unhandled `KeyError` raised by `self.holdings[sym] -= qty`
when `sym` is not a key of the dictionary. -/
inductive TradeOutcome where
  | ok
  | insufficientFunds
  | insufficientHoldings
  | keyError
  deriving Repr, DecidableEq

/-- The activity message truncation in `execute_trade`:
`msg = result_msg if len(result_msg) <= 30 else result_msg[:27] + "…"`. -/
def truncMsg (m : String) : String :=
  if m.length ≤ 30 then m else String.mk (m.data.take 27) ++ "…"

/-- `CryptoSimApp.execute_trade` (the ledger part: dialogs, persistence
and re-rendering omitted).  Returns the new state and the outcome; on a
rejection or a `KeyError` the state is returned unchanged, exactly as the
Python `return` / raise leaves it. -/
def execute_trade (s : AccountState) (sym : String) (action : Action)
    (pay_amt qty : ℚ) : AccountState × TradeOutcome :=
  match action with
  | .Buy =>
    if pay_amt > s.current_balance then (s, .insufficientFunds)
    else
      let bal := s.current_balance - pay_amt
      let hold := dictSet s.holdings sym (dictGet s.holdings sym 0 + qty)
      let result_msg :=
        "Bought " ++ formatFixed qty 6 ++ " " ++ sym ++ " for $" ++
          formatFixed pay_amt 2 ++ " USD"
      ({ current_balance := bal
         holdings := hold
         activity := recordActivity s.activity ⟨truncMsg result_msg, "red"⟩ },
       .ok)
  | .Sell =>
    let owned := dictGet s.holdings sym 0
    if qty > owned then (s, .insufficientHoldings)
    else
      match dictFind s.holdings sym with
      | none => (s, .keyError)
      | some v =>
        let hold := dictSet s.holdings sym (v - qty)
        let bal := s.current_balance + pay_amt
        let result_msg :=
          "Sold " ++ formatFixed qty 6 ++ " " ++ sym ++ " for $" ++
            formatFixed pay_amt 2 ++ " USD"
        ({ current_balance := bal
           holdings := hold
           activity := recordActivity s.activity ⟨truncMsg result_msg, "green"⟩ },
         .ok)

/-- One record of `self.cached_coins_data`: the dictionary fields consumed
by the ledger/market core (`NAME`, `SYMBOL`, `PRICE_USD`,
`TOTAL_MKT_CAP_USD`, `SPOT_MOVING_24_HOUR_CHANGE_PERCENTAGE_USD`). -/
structure Coin where
  name : String
  symbol : String
  price_usd : ℚ
  total_mkt_cap_usd : ℚ
  change_24h_pct : ℚ
  deriving Repr, DecidableEq, Inhabited

/-- The three numeric attribute keys offered by the Filter menu
(`PRICE_USD`, `TOTAL_MKT_CAP_USD`,
`SPOT_MOVING_24_HOUR_CHANGE_PERCENTAGE_USD`). -/
inductive SortAttr where
  | priceUsd
  | totalMktCapUsd
  | change24hPct
  deriving Repr, DecidableEq

/-- `float(x.get(attr, 0) or 0)` — the numeric sort key of a coin record
for one of the three menu attributes. -/
def attrVal (attr : SortAttr) (c : Coin) : ℚ :=
  match attr with
  | .priceUsd => c.price_usd
  | .totalMktCapUsd => c.total_mkt_cap_usd
  | .change24hPct => c.change_24h_pct

/-- `CryptoSimApp.run_search`: derives `displayed_coins` from the base
snapshot `cached_coins_data` and the query string. -/
def run_search (cached : List Coin) (query : String) : List Coin :=
  let q := pyLower (pyStrip query)
  if q = "" then cached
  else cached.filter fun c => strIn q (pyLower c.name) || strIn q (pyLower c.symbol)

/-- Modelled from the spec: `needle` occurs in `hay` as a case-insensitive
substring (the matching relation C7 ascribes to search, applied to the raw
query). -/
def containsCI (needle hay : String) : Bool :=
  strIn (pyLower needle) (pyLower hay)

/-- Modelled from the spec (amended): the quotes whose name or symbol
contains the *whitespace-stripped* query as a case-insensitive substring, in
original snapshot order; a query that strips to the empty string returns the
snapshot unchanged. -/
def searchSpec (snapshot : List Coin) (query : String) : List Coin :=
  let stripped := pyStrip query
  if pyLower stripped = "" then snapshot
  else snapshot.filter fun c =>
    strIn (pyLower stripped) (pyLower c.name) || strIn (pyLower stripped) (pyLower c.symbol)

/-- The recursive `quick_sort` inside `CryptoSimApp.run_sort`:
`pivot = arr[len(arr)//2]`, partition by `<`, `==`, `>` on the numeric
attribute value, recurse on the strict partitions. -/
def quick_sort (key : Coin → ℚ) (arr : List Coin) : List Coin :=
  if _h : arr.length ≤ 1 then arr
  else
    let pivot := arr.getD (arr.length / 2) default
    let pv := key pivot
    let left := arr.filter fun x => key x < pv
    let mid := arr.filter fun x => key x = pv
    let right := arr.filter fun x => pv < key x
    quick_sort key left ++ mid ++ quick_sort key right
termination_by arr.length
decreasing_by
  · refine List.length_filter_lt_length_iff_exists.mpr ⟨pivot, ?_, ?_⟩
    · have hpos : 0 < arr.length := by omega
      have hlt : arr.length / 2 < arr.length := Nat.div_lt_self hpos (by omega)
      have : arr.getD (arr.length / 2) default = arr[arr.length / 2] :=
        List.getD_eq_getElem arr default hlt
      simp only [pivot, this]
      exact List.getElem_mem hlt
    · simp only [pv, decide_eq_true_eq]
      exact lt_irrefl _
  · refine List.length_filter_lt_length_iff_exists.mpr ⟨pivot, ?_, ?_⟩
    · have hpos : 0 < arr.length := by omega
      have hlt : arr.length / 2 < arr.length := Nat.div_lt_self hpos (by omega)
      have : arr.getD (arr.length / 2) default = arr[arr.length / 2] :=
        List.getD_eq_getElem arr default hlt
      simp only [pivot, this]
      exact List.getElem_mem hlt
    · simp only [pv, decide_eq_true_eq]
      exact lt_irrefl _

/-- `CryptoSimApp.run_sort`: quick-sort the currently displayed view by the
chosen attribute and reverse the result when `ascending` is false. -/
def run_sort (attr : SortAttr) (ascending : Bool) (displayed : List Coin) : List Coin :=
  let sorted_list := quick_sort (attrVal attr) displayed
  if ascending then sorted_list else sorted_list.reverse

/-- `next((c["PRICE_USD"] for c in cached if c["SYMBOL"] == sym), 0.0)` —
price lookup used by the Leaderboard tab; a symbol with no matching quote
yields `0`. -/
def lookupPrice (cached : List Coin) (sym : String) : ℚ :=
  match cached.find? (fun c => c.symbol = sym) with
  | some c => c.price_usd
  | none => 0

/-- The per-account net-worth computation of the Leaderboard branch of
`switch_tab`: `bal + Σ price * amt` over the holdings items. -/
def netWorthOf (cached : List Coin) (bal : ℚ) (holdings : Holdings) : ℚ :=
  bal + holdings.foldl (fun acc p => acc + lookupPrice cached p.1 * p.2) 0

/-- One persisted user record as read by `load_all_users_data`:
`(username, balance, holdings)`. -/
structure UserRecord where
  username : String
  balance : ℚ
  holdings : Holdings
  deriving Repr, DecidableEq

/-- The Leaderboard branch of `switch_tab`: compute `(username, netWorth)`
for every user and sort descending by net worth
(`networths.sort(key=lambda x: x[1], reverse=True)`, a stable descending
sort). -/
def leaderboardRank (users : List UserRecord) (cached : List Coin) :
    List (String × ℚ) :=
  let networths := users.map fun u => (u.username, netWorthOf cached u.balance u.holdings)
  networths.mergeSort fun a b => decide (b.2 ≤ a.2)

/-- One ledger-mutating request: the argument vectors of `deposit`,
`withdraw` and `execute_trade`. -/
inductive Op where
  | dep : ℚ → Op
  | wd : ℚ → Op
  | trade : String → Action → ℚ → ℚ → Op
  deriving Repr, DecidableEq

/-- The state transition of one request (rejected requests and the
`KeyError` leave the state unchanged, as in the source). -/
def step (s : AccountState) (op : Op) : AccountState :=
  match op with
  | .dep amount => deposit s amount
  | .wd amount => withdraw s amount
  | .trade sym action pay qty => (execute_trade s sym action pay qty).1

/-- Run a sequence of requests from a starting state. -/
def runOps (s : AccountState) (ops : List Op) : AccountState :=
  ops.foldl step s

/-- Solvency: non-negative balance and no negative holding amount. -/
def Solvent (s : AccountState) : Prop :=
  0 ≤ s.current_balance ∧ ∀ p ∈ s.holdings, 0 ≤ p.2

instance (s : AccountState) : Decidable (Solvent s) := by
  unfold Solvent; infer_instance

/-- Non-negativity of the two caller-supplied amounts of a trade request
(deposit and withdraw amounts are validated by the code itself and need no
restriction). -/
def opAmountsOk (op : Op) : Bool :=
  match op with
  | .trade _ _ pay qty => decide (0 ≤ pay) && decide (0 ≤ qty)
  | _ => true

/-- Every trade in the request sequence has non-negative `pay_amt` and
`qty`. -/
def TradeAmountsNonneg (ops : List Op) : Prop :=
  ∀ op ∈ ops, opAmountsOk op = true

instance (ops : List Op) : Decidable (TradeAmountsNonneg ops) := by
  unfold TradeAmountsNonneg; infer_instance

/-! ## Dictionary and activity-log lemmas -/

theorem dictGet_eq_of_find {d : Holdings} {k : String} {v : ℚ}
    (h : dictFind d k = some v) : dictGet d k 0 = v := by
  simp [dictGet, h]

theorem dictGet_eq_zero_of_find_none {d : Holdings} {k : String}
    (h : dictFind d k = none) : dictGet d k 0 = 0 := by
  simp [dictGet, h]

theorem dictFind_some_mem {d : Holdings} {k : String} {v : ℚ}
    (h : dictFind d k = some v) : (k, v) ∈ d := by
  induction d with
  | nil => simp [dictFind] at h
  | cons p rest ih =>
    rcases p with ⟨a, b⟩
    by_cases hp : a = k
    · simp [dictFind, hp] at h
      subst hp; subst h
      exact List.mem_cons_self _ _
    · simp only [dictFind, hp, if_false] at h
      exact List.mem_cons_of_mem _ (ih h)

theorem dictGet_nonneg {d : Holdings} {k : String} (hd : ∀ p ∈ d, 0 ≤ p.2) :
    0 ≤ dictGet d k 0 := by
  cases hf : dictFind d k with
  | none => simp [dictGet_eq_zero_of_find_none hf]
  | some v => rw [dictGet_eq_of_find hf]; exact hd _ (dictFind_some_mem hf)

theorem dictSet_nonneg {d : Holdings} {k : String} {v : ℚ}
    (hd : ∀ p ∈ d, 0 ≤ p.2) (hv : 0 ≤ v) : ∀ p ∈ dictSet d k v, 0 ≤ p.2 := by
  induction d with
  | nil =>
    intro p hp
    simp [dictSet] at hp
    subst hp; exact hv
  | cons q rest ih =>
    intro p hp
    by_cases hq : q.1 = k
    · simp only [dictSet, hq, if_true] at hp
      rcases List.mem_cons.mp hp with hp | hp
      · subst hp; exact hv
      · exact hd p (List.mem_cons_of_mem _ hp)
    · simp only [dictSet, hq, if_false] at hp
      rcases List.mem_cons.mp hp with hp | hp
      · subst hp; exact hd p (List.mem_cons_self _ _)
      · exact ih (fun r hr => hd r (List.mem_cons_of_mem _ hr)) p hp

theorem dictFind_dictSet_self (d : Holdings) (k : String) (v : ℚ) :
    dictFind (dictSet d k v) k = some v := by
  induction d with
  | nil => simp [dictSet, dictFind]
  | cons p rest ih =>
    by_cases hp : p.1 = k
    · simp [dictSet, hp, dictFind]
    · simp [dictSet, hp, dictFind, ih]

theorem dictSet_keys_of_find {d : Holdings} {k : String} {w : ℚ} (v : ℚ)
    (h : dictFind d k = some w) :
    (dictSet d k v).map Prod.fst = d.map Prod.fst := by
  induction d with
  | nil => simp [dictFind] at h
  | cons p rest ih =>
    by_cases hp : p.1 = k
    · simp [dictSet, hp]
    · simp only [dictFind, hp, if_false] at h
      simp [dictSet, hp, ih h]

theorem recordActivity_eq_take {l : List ActivityEntry} (e : ActivityEntry)
    (h : l.length ≤ 5) : recordActivity l e = (e :: l).take 5 := by
  unfold recordActivity
  by_cases h5 : (e :: l).length > 5
  · rw [if_pos h5]
    have h6 : (e :: l).length = 6 := by simp at h5 ⊢; omega
    rw [List.dropLast_eq_take]
    rw [h6]
  · rw [if_neg h5]
    have : (e :: l).length ≤ 5 := by omega
    exact (List.take_of_length_le this).symm

theorem recordActivity_length_le {l : List ActivityEntry} (e : ActivityEntry)
    (h : l.length ≤ 5) : (recordActivity l e).length ≤ 5 := by
  rw [recordActivity_eq_take e h]
  simp [List.length_take]

theorem recordActivity_eq_cons {l : List ActivityEntry} (e : ActivityEntry)
    (h : l.length ≤ 5) : recordActivity l e = e :: l.take 4 := by
  rw [recordActivity_eq_take e h, List.take_succ_cons]

/-! ## Claim theorems -/

/-- C2: a Buy rejected because `payAmount > balanceUsd`, or a Sell rejected
because the sell quantity exceeds `holdings[symbol]` (missing symbol treated
as `0`), returns the account state — balance, holdings and activity log —
exactly as it was before the call, with only the error reported. -/
theorem c2_rejected_trade_atomicity (s : AccountState) (sym : String) (pay_amt qty : ℚ) :
    (pay_amt > s.current_balance →
      execute_trade s sym Action.Buy pay_amt qty = (s, TradeOutcome.insufficientFunds)) ∧
    (qty > dictGet s.holdings sym 0 →
      execute_trade s sym Action.Sell pay_amt qty = (s, TradeOutcome.insufficientHoldings)) := by
  constructor
  · intro h
    simp only [execute_trade]
    rw [if_pos h]
  · intro h
    simp only [execute_trade]
    rw [if_pos h]

/-- Witness for C2: a Buy of $1500 against a $1000 balance and a Sell of 2
BTC against a holding of 1 BTC are both rejected with the state unchanged. -/
theorem c2_rejected_trade_atomicity_witness :
    execute_trade ⟨1000, [], []⟩ "ETH" Action.Buy 1500 (3/4) =
      (⟨1000, [], []⟩, TradeOutcome.insufficientFunds) ∧
    execute_trade ⟨5, [("BTC", 1)], []⟩ "BTC" Action.Sell 5 2 =
      (⟨5, [("BTC", 1)], []⟩, TradeOutcome.insufficientHoldings) := by
  constructor
  · exact (c2_rejected_trade_atomicity ⟨1000, [], []⟩ "ETH" 1500 (3/4)).1 (by norm_num)
  · refine (c2_rejected_trade_atomicity ⟨5, [("BTC", 1)], []⟩ "BTC" 5 2).2 ?_
    simp [dictGet, dictFind]

/-- C8: `withdraw` with a non-positive amount or an amount above the balance
performs no mutation; otherwise it decreases the balance by exactly the
amount, leaves the holdings untouched, and pushes exactly one Debit
(`"red"`) activity entry describing the amount. -/
theorem c8_withdraw_semantics (s : AccountState) (amount : ℚ) :
    (amount ≤ 0 → withdraw s amount = s) ∧
    (amount > s.current_balance → withdraw s amount = s) ∧
    (0 < amount → amount ≤ s.current_balance → s.activity.length ≤ 5 →
      withdraw s amount =
        { current_balance := s.current_balance - amount
          holdings := s.holdings
          activity :=
            ⟨"Withdrew $" ++ formatFixed amount 2 ++ " USD", "red"⟩ :: s.activity.take 4 }) := by
  refine ⟨?_, ?_, ?_⟩
  · intro h
    simp [withdraw, h]
  · intro h
    unfold withdraw
    by_cases h0 : amount ≤ 0
    · rw [if_pos h0]
    · rw [if_neg h0, if_pos h]
  · intro h0 hle hlen
    unfold withdraw
    rw [if_neg (not_le.mpr h0), if_neg (not_lt.mpr hle)]
    rw [recordActivity_eq_cons _ hlen]

/-- Witness for C8: a zero withdrawal and an over-balance withdrawal leave
the state unchanged; withdrawing $30 from $100 leaves $70, the holdings
unchanged, and one new Debit entry. -/
theorem c8_withdraw_semantics_witness :
    withdraw ⟨100, [("BTC", 1)], []⟩ 0 = ⟨100, [("BTC", 1)], []⟩ ∧
    withdraw ⟨100, [("BTC", 1)], []⟩ 200 = ⟨100, [("BTC", 1)], []⟩ ∧
    withdraw ⟨100, [("BTC", 1)], []⟩ 30 =
      ⟨70, [("BTC", 1)], [⟨"Withdrew $" ++ formatFixed 30 2 ++ " USD", "red"⟩]⟩ := by
  refine ⟨?_, ?_, ?_⟩
  · exact (c8_withdraw_semantics ⟨100, [("BTC", 1)], []⟩ 0).1 (by norm_num)
  · exact (c8_withdraw_semantics ⟨100, [("BTC", 1)], []⟩ 200).2.1 (by norm_num)
  · have h := (c8_withdraw_semantics ⟨100, [("BTC", 1)], []⟩ 30).2.2
      (by norm_num) (by norm_num) (by simp)
    rw [h]
    norm_num

/-- C9: a Sell of quantity `0` of a symbol absent from the holdings map
passes the insufficient-holdings check (`0 > 0` is false) and then raises
`KeyError` on `self.holdings[sym] -= qty`, leaving the state unchanged,
instead of succeeding or reporting a trade error. -/
theorem c9_sell_missing_symbol_keyerror (s : AccountState) (sym : String) (pay_amt : ℚ)
    (h : dictFind s.holdings sym = none) :
    execute_trade s sym Action.Sell pay_amt 0 = (s, TradeOutcome.keyError) := by
  simp [execute_trade, dictGet_eq_zero_of_find_none h, h]

/-- Witness for C9: selling 0 BTC while holding only ETH raises the
`KeyError` outcome. -/
theorem c9_sell_missing_symbol_keyerror_witness :
    execute_trade ⟨50, [("ETH", 1)], []⟩ "BTC" Action.Sell 10 0 =
      (⟨50, [("ETH", 1)], []⟩, TradeOutcome.keyError) :=
  c9_sell_missing_symbol_keyerror ⟨50, [("ETH", 1)], []⟩ "BTC" 10 (by decide)

/-- C10: a successful Sell updates the symbol's amount in place and never
deletes the key: the key list of the holdings dictionary is unchanged, and
selling the entire held amount leaves the symbol present with amount `0`. -/
theorem c10_sell_retains_keys (s : AccountState) (sym : String) (pay_amt qty : ℚ) :
    ((execute_trade s sym Action.Sell pay_amt qty).2 = TradeOutcome.ok →
      (execute_trade s sym Action.Sell pay_amt qty).1.holdings.map Prod.fst =
        s.holdings.map Prod.fst) ∧
    (dictFind s.holdings sym = some qty →
      (execute_trade s sym Action.Sell pay_amt qty).2 = TradeOutcome.ok ∧
      dictFind (execute_trade s sym Action.Sell pay_amt qty).1.holdings sym = some 0) := by
  constructor
  · intro hok
    by_cases hq : qty > dictGet s.holdings sym 0
    · exfalso
      simp only [execute_trade, if_pos hq] at hok
      cases hok
    · cases hf : dictFind s.holdings sym with
      | none =>
        exfalso
        simp only [execute_trade, if_neg hq, hf] at hok
        cases hok
      | some v =>
        simp only [execute_trade, if_neg hq, hf]
        exact dictSet_keys_of_find _ hf
  · intro hf
    have hg : dictGet s.holdings sym 0 = qty := dictGet_eq_of_find hf
    have hnot : ¬ qty > dictGet s.holdings sym 0 := by
      rw [hg]
      exact lt_irrefl qty
    refine ⟨?_, ?_⟩
    · simp only [execute_trade]
      rw [if_neg hnot, hf]
    · simp only [execute_trade]
      rw [if_neg hnot, hf]
      simp [dictFind_dictSet_self]

/-- Witness for C10: selling the full 2 BTC succeeds, leaves the key
`"BTC"` present with amount `0`, and preserves the key list. -/
theorem c10_sell_retains_keys_witness :
    (execute_trade ⟨0, [("BTC", 2)], []⟩ "BTC" Action.Sell 100 2).2 = TradeOutcome.ok ∧
    dictFind (execute_trade ⟨0, [("BTC", 2)], []⟩ "BTC" Action.Sell 100 2).1.holdings "BTC" =
      some 0 ∧
    (execute_trade ⟨0, [("BTC", 2)], []⟩ "BTC" Action.Sell 100 2).1.holdings.map Prod.fst =
      ["BTC"] := by
  have h2 := (c10_sell_retains_keys ⟨0, [("BTC", 2)], []⟩ "BTC" 100 2).2
    (by simp [dictFind])
  refine ⟨h2.1, h2.2, ?_⟩
  have h1 := (c10_sell_retains_keys ⟨0, [("BTC", 2)], []⟩ "BTC" 100 2).1 h2.1
  rw [h1]
  simp

theorem take_append_take {α : Type} (n : ℕ) (xs ys : List α) :
    (xs ++ ys.take n).take n = (xs ++ ys).take n := by
  rw [List.take_append_eq_append_take, List.take_append_eq_append_take]
  congr 1
  rw [List.take_take]
  congr 1
  exact min_eq_left (Nat.sub_le n xs.length)

theorem foldl_recordActivity (es : List ActivityEntry) :
    ∀ l : List ActivityEntry, l.length ≤ 5 →
      es.foldl recordActivity l = (es.reverse ++ l).take 5 := by
  induction es with
  | nil =>
    intro l h
    simp [List.take_of_length_le h]
  | cons e rest ih =>
    intro l h
    simp only [List.foldl_cons]
    rw [recordActivity_eq_take e h]
    rw [ih ((e :: l).take 5) (by simp)]
    rw [take_append_take]
    simp [List.append_assoc]

theorem step_activity_length {s : AccountState} (op : Op)
    (h : s.activity.length ≤ 5) : (step s op).activity.length ≤ 5 := by
  cases op with
  | dep amount =>
    simp only [step, deposit]
    by_cases hp : amount ≤ 0
    · rw [if_pos hp]; exact h
    · rw [if_neg hp]; exact recordActivity_length_le _ h
  | wd amount =>
    simp only [step, withdraw]
    by_cases hp : amount ≤ 0
    · rw [if_pos hp]; exact h
    · rw [if_neg hp]
      by_cases h2 : amount > s.current_balance
      · rw [if_pos h2]; exact h
      · rw [if_neg h2]; exact recordActivity_length_le _ h
  | trade sym action pay qty =>
    cases action with
    | Buy =>
      simp only [step, execute_trade]
      by_cases hp : pay > s.current_balance
      · rw [if_pos hp]; exact h
      · rw [if_neg hp]; exact recordActivity_length_le _ h
    | Sell =>
      simp only [step, execute_trade]
      by_cases hp : qty > dictGet s.holdings sym 0
      · rw [if_pos hp]; exact h
      · rw [if_neg hp]
        cases hf : dictFind s.holdings sym with
        | none => simp only [hf]; exact h
        | some v => simp only [hf]; exact recordActivity_length_le _ h

/-- C5: recording events into an initially empty activity log stores exactly
the five (or fewer) most recent insertions, most-recent-first (the log after
a sequence of records is the reversed event list truncated to five); and any
request sequence keeps the activity log of an account within the five-entry
bound. -/
theorem c5_activity_bound :
    (∀ es : List ActivityEntry, applyRecords es = (es.reverse).take 5) ∧
    (∀ (s : AccountState) (ops : List Op), s.activity.length ≤ 5 →
      ((runOps s ops).activity).length ≤ 5) := by
  constructor
  · intro es
    have h := foldl_recordActivity es [] (by simp)
    simpa [applyRecords] using h
  · intro s ops h
    induction ops generalizing s with
    | nil => exact h
    | cons op rest ih => exact ih (step s op) (step_activity_length op h)

/-- Witness for C5: six recorded entries leave exactly the five most recent,
most-recent-first, and a concrete request run stays within the bound. -/
theorem c5_activity_bound_witness :
    applyRecords [⟨"e1", "green"⟩, ⟨"e2", "green"⟩, ⟨"e3", "red"⟩, ⟨"e4", "green"⟩,
        ⟨"e5", "red"⟩, ⟨"e6", "green"⟩] =
      [⟨"e6", "green"⟩, ⟨"e5", "red"⟩, ⟨"e4", "green"⟩, ⟨"e3", "red"⟩, ⟨"e2", "green"⟩] ∧
    ((runOps ⟨0, [], []⟩ [Op.dep 5]).activity).length ≤ 5 := by
  constructor
  · rw [c5_activity_bound.1]
    rfl
  · exact c5_activity_bound.2 ⟨0, [], []⟩ [Op.dep 5] (by simp)

theorem solvent_step {s : AccountState} {op : Op}
    (hs : Solvent s) (hop : opAmountsOk op = true) : Solvent (step s op) := by
  obtain ⟨hb, hh⟩ := hs
  cases op with
  | dep amount =>
    simp only [step, deposit]
    by_cases h : amount ≤ 0
    · rw [if_pos h]; exact ⟨hb, hh⟩
    · rw [if_neg h]
      push_neg at h
      exact ⟨by simp only; linarith, hh⟩
  | wd amount =>
    simp only [step, withdraw]
    by_cases h : amount ≤ 0
    · rw [if_pos h]; exact ⟨hb, hh⟩
    · rw [if_neg h]
      by_cases h2 : amount > s.current_balance
      · rw [if_pos h2]; exact ⟨hb, hh⟩
      · rw [if_neg h2]
        push_neg at h2
        exact ⟨by simp only; linarith, hh⟩
  | trade sym action pay qty =>
    simp only [opAmountsOk, Bool.and_eq_true, decide_eq_true_eq] at hop
    obtain ⟨hpay, hqty⟩ := hop
    cases action with
    | Buy =>
      simp only [step, execute_trade]
      by_cases h : pay > s.current_balance
      · rw [if_pos h]; exact ⟨hb, hh⟩
      · rw [if_neg h]
        push_neg at h
        refine ⟨by simp only; linarith, ?_⟩
        exact dictSet_nonneg hh (add_nonneg (dictGet_nonneg hh) hqty)
    | Sell =>
      simp only [step, execute_trade]
      by_cases h : qty > dictGet s.holdings sym 0
      · rw [if_pos h]; exact ⟨hb, hh⟩
      · rw [if_neg h]
        cases hf : dictFind s.holdings sym with
        | none => simp only [hf]; exact ⟨hb, hh⟩
        | some v =>
          simp only [hf]
          push_neg at h
          rw [dictGet_eq_of_find hf] at h
          refine ⟨by simp only; linarith, ?_⟩
          exact dictSet_nonneg hh (by linarith)

/-- C1 (amended): starting from a solvent account (non-negative balance, no
negative holding), any sequence of deposit, withdraw and trade requests in
which every trade carries a non-negative `pay_amt` and a non-negative `qty`
keeps the balance non-negative and every holding amount non-negative.
(Deposit and withdraw amounts need no restriction: the code validates them;
trade amounts are applied unvalidated.) -/
theorem c1_solvency_nonneg_amounts (s : AccountState) (ops : List Op)
    (hs : Solvent s) (hops : TradeAmountsNonneg ops) : Solvent (runOps s ops) := by
  induction ops generalizing s with
  | nil => exact hs
  | cons op rest ih =>
    have h1 : opAmountsOk op = true := hops op (List.mem_cons_self _ _)
    have h2 : TradeAmountsNonneg rest := fun o ho => hops o (List.mem_cons_of_mem _ ho)
    exact ih (step s op) (solvent_step hs h1) h2

/-- C1 counterexample: the claim as stated (over all caller-supplied
amounts, including non-positive ones) is false — a Buy with
`receiveAmount = -1` passes the funds check and drives the `"BTC"` holding
to `-1` from a perfectly solvent start. -/
theorem c1_counterexample :
    Solvent ⟨0, [], []⟩ ∧
    (runOps ⟨0, [], []⟩ [Op.trade "BTC" Action.Buy 0 (-1)]).holdings = [("BTC", -1)] ∧
    ¬ Solvent (runOps ⟨0, [], []⟩ [Op.trade "BTC" Action.Buy 0 (-1)]) := by
  have hrun : (runOps ⟨0, [], []⟩ [Op.trade "BTC" Action.Buy 0 (-1)]).holdings =
      [("BTC", -1)] := by
    simp only [runOps, List.foldl_cons, List.foldl_nil, step, execute_trade]
    rw [if_neg (by norm_num : ¬ (0:ℚ) > (AccountState.mk 0 [] []).current_balance)]
    simp [dictGet, dictFind, dictSet]
  refine ⟨⟨le_refl 0, by simp⟩, hrun, ?_⟩
  intro hsol
  have hmem : (("BTC", (-1 : ℚ))) ∈ (runOps ⟨0, [], []⟩
      [Op.trade "BTC" Action.Buy 0 (-1)]).holdings := by
    rw [hrun]
    exact List.mem_cons_self _ _
  have := hsol.2 _ hmem
  norm_num at this

/-- Witness for C1 (amended): a concrete solvent run — deposit $100, buy 2
BTC for $40, withdraw $10 — ends solvent. -/
theorem c1_solvency_nonneg_amounts_witness :
    Solvent (runOps ⟨0, [], []⟩
      [Op.dep 100, Op.trade "BTC" Action.Buy 40 2, Op.wd 10]) := by
  apply c1_solvency_nonneg_amounts
  · exact ⟨le_refl 0, by simp⟩
  · intro op hop
    fin_cases hop <;> norm_num [opAmountsOk]

/-- C7 (amended): `run_search` matches the *whitespace-stripped* query
case-insensitively against name or symbol: it equals the spec-side filter
(`searchSpec`), a query that strips to the empty string returns the base
snapshot unchanged, and the result is always a subsequence of the base
snapshot (original order, derived from the snapshot, never from a prior
view). -/
theorem c7_search_semantics (snapshot : List Coin) (query : String) :
    run_search snapshot query = searchSpec snapshot query ∧
    (pyStrip query = "" → run_search snapshot query = snapshot) ∧
    (run_search snapshot query).Sublist snapshot := by
  refine ⟨rfl, ?_, ?_⟩
  · intro h
    have h0 : pyLower (pyStrip query) = "" := by rw [h]; rfl
    simp [run_search, h0]
  · simp only [run_search]
    split
    · exact List.Sublist.refl _
    · exact List.filter_sublist _

/-- Witness for C7 (amended): a whitespace-only query returns the snapshot
unchanged. -/
theorem c7_search_semantics_witness :
    run_search [⟨"Bitcoin", "BTC", 1, 2, 3⟩] "  " = [⟨"Bitcoin", "BTC", 1, 2, 3⟩] :=
  (c7_search_semantics [⟨"Bitcoin", "BTC", 1, 2, 3⟩] "  ").2.1 (by decide)

/-- C7 counterexample: the claim as stated (match the query itself) is
false — for the query `" a"` (leading space) on a snapshot whose only
quote has name and symbol `"ba"`, the code strips the query and returns
the quote, although `"ba"` does not contain `" a"` as a case-insensitive
substring. -/
theorem c7_counterexample :
    run_search [⟨"ba", "ba", 1, 1, 1⟩] " a" = [⟨"ba", "ba", 1, 1, 1⟩] ∧
    containsCI " a" "ba" = false := by
  constructor
  · decide
  · decide

theorem formatFixed_quarter_6 : formatFixed (1/4 : ℚ) 6 = "0.250000" := by
  have h : round (|(1/4 : ℚ)| * ((10 ^ 6 : ℕ) : ℚ)) = 250000 := by
    rw [abs_of_nonneg (by norm_num : (0:ℚ) ≤ 1/4)]
    norm_num [round_eq]
  unfold formatFixed
  rw [h]
  norm_num
  decide

theorem formatFixed_500_2 : formatFixed (500 : ℚ) 2 = "500.00" := by
  have h : round (|(500 : ℚ)| * ((10 ^ 2 : ℕ) : ℚ)) = 50000 := by
    rw [abs_of_nonneg (by norm_num : (0:ℚ) ≤ 500)]
    norm_num [round_eq]
  unfold formatFixed
  rw [h]
  norm_num
  decide

theorem execute_trade_buy_example :
    execute_trade ⟨1000, [], []⟩ "ETH" Action.Buy 500 (1/4) =
      (⟨500, [("ETH", 1/4)],
        [⟨"Bought 0.250000 ETH for $50…", "red"⟩]⟩, TradeOutcome.ok) := by
  have hmsg : truncMsg ("Bought " ++ formatFixed ((1:ℚ)/4) 6 ++ " " ++ "ETH" ++ " for $" ++
      formatFixed (500:ℚ) 2 ++ " USD") = "Bought 0.250000 ETH for $50…" := by
    rw [formatFixed_quarter_6, formatFixed_500_2]
    decide
  simp only [execute_trade]
  rw [if_neg (by norm_num : ¬ (500:ℚ) > (AccountState.mk 1000 [] []).current_balance)]
  rw [hmsg]
  simp [dictGet, dictFind, dictSet, recordActivity]
  norm_num

/-- C3 (amended): the spec's trade example, with the activity description
as the code stores it: from balance `1000` and empty holdings, a Buy of ETH
with `payAmount = 500` and `receiveAmount = 0.25` succeeds, leaving balance
`500`, holdings `{ETH: 0.25}` and exactly one new Debit entry — whose
description is the 30-character truncation
`"Bought 0.250000 ETH for $50…"` of the full confirmation message
`"Bought 0.250000 ETH for $500.00 USD"`. -/
theorem c3_buy_example :
    execute_trade ⟨1000, [], []⟩ "ETH" Action.Buy 500 (1/4) =
      (⟨500, [("ETH", 1/4)],
        [⟨"Bought 0.250000 ETH for $50…", "red"⟩]⟩, TradeOutcome.ok) :=
  execute_trade_buy_example

/-- C3 counterexample: the stored activity entry of the spec's trade
example does not contain `"Bought 0.250000 ETH for $500.00 USD"` — the
35-character message is truncated to `"Bought 0.250000 ETH for $50…"`
before insertion. -/
theorem c3_counterexample :
    (execute_trade ⟨1000, [], []⟩ "ETH" Action.Buy 500 (1/4)).1.activity =
      [⟨"Bought 0.250000 ETH for $50…", "red"⟩] ∧
    strIn "Bought 0.250000 ETH for $500.00 USD" "Bought 0.250000 ETH for $50…" = false := by
  constructor
  · rw [execute_trade_buy_example]
  · decide

theorem length_filter_lt_of_mem_false {α : Type} (p : α → Bool) {l : List α} {x : α}
    (hx : x ∈ l) (hpx : p x = false) : (l.filter p).length < l.length :=
  List.length_filter_lt_length_iff_exists.mpr ⟨x, hx, by simp [hpx]⟩

theorem pivot_mem (arr : List Coin) (hx : ¬ arr.length ≤ 1) :
    arr.getD (arr.length / 2) default ∈ arr := by
  have hpos : 0 < arr.length := by omega
  have hlt : arr.length / 2 < arr.length := Nat.div_lt_self hpos (by omega)
  rw [List.getD_eq_getElem arr default hlt]
  exact List.getElem_mem hlt

theorem quick_sort_filter_key (key : Coin → ℚ) (k : ℚ) :
    ∀ (n : ℕ) (arr : List Coin), arr.length ≤ n →
      (quick_sort key arr).filter (fun c => decide (key c = k)) =
        arr.filter (fun c => decide (key c = k)) := by
  intro n
  induction n with
  | zero =>
    intro arr h
    rw [quick_sort, dif_pos (by omega)]
  | succ n ih =>
    intro arr h
    by_cases hx : arr.length ≤ 1
    · rw [quick_sort, dif_pos hx]
    · rw [quick_sort, dif_neg hx]
      have hlenl : (arr.filter fun x =>
          decide (key x < key (arr.getD (arr.length / 2) default))).length ≤ n := by
        have hflt := length_filter_lt_of_mem_false
          (fun x => decide (key x < key (arr.getD (arr.length / 2) default)))
          (pivot_mem arr hx) (by simp)
        omega
      have hlenr : (arr.filter fun x =>
          decide (key (arr.getD (arr.length / 2) default) < key x)).length ≤ n := by
        have hflt := length_filter_lt_of_mem_false
          (fun x => decide (key (arr.getD (arr.length / 2) default) < key x))
          (pivot_mem arr hx) (by simp)
        omega
      simp only [List.filter_append]
      rw [ih _ hlenl, ih _ hlenr]
      rw [List.filter_filter, List.filter_filter, List.filter_filter]
      rcases lt_trichotomy k (key (arr.getD (arr.length / 2) default)) with hk | hk | hk
      · have hA : (arr.filter fun a => decide (key a = k) &&
            decide (key a < key (arr.getD (arr.length / 2) default))) =
            arr.filter fun a => decide (key a = k) := by
          refine List.filter_congr ?_
          intro a _
          cases hd : decide (key a = k) with
          | false => simp
          | true =>
            simp only [Bool.true_and]
            rw [decide_eq_true_eq] at hd
            rw [hd]
            exact decide_eq_true hk
        have hB : (arr.filter fun a => decide (key a = k) &&
            decide (key a = key (arr.getD (arr.length / 2) default))) = [] := by
          refine List.filter_eq_nil_iff.mpr ?_
          intro a _
          simp only [Bool.and_eq_true, decide_eq_true_eq, not_and]
          intro h1 h2
          rw [h1] at h2
          exact absurd h2 (ne_of_lt hk)
        have hC : (arr.filter fun a => decide (key a = k) &&
            decide (key (arr.getD (arr.length / 2) default) < key a)) = [] := by
          refine List.filter_eq_nil_iff.mpr ?_
          intro a _
          simp only [Bool.and_eq_true, decide_eq_true_eq, not_and]
          intro h1 h2
          rw [h1] at h2
          exact absurd hk (not_lt.mpr (le_of_lt h2))
        rw [hA, hB, hC]
        simp
      · have hA : (arr.filter fun a => decide (key a = k) &&
            decide (key a < key (arr.getD (arr.length / 2) default))) = [] := by
          refine List.filter_eq_nil_iff.mpr ?_
          intro a _
          simp only [Bool.and_eq_true, decide_eq_true_eq, not_and]
          intro h1 h2
          rw [h1, hk] at h2
          exact absurd h2 (lt_irrefl _)
        have hB : (arr.filter fun a => decide (key a = k) &&
            decide (key a = key (arr.getD (arr.length / 2) default))) =
            arr.filter fun a => decide (key a = k) := by
          refine List.filter_congr ?_
          intro a _
          cases hd : decide (key a = k) with
          | false => simp
          | true =>
            simp only [Bool.true_and]
            rw [decide_eq_true_eq] at hd
            rw [hd, hk]
            exact decide_eq_true rfl
        have hC : (arr.filter fun a => decide (key a = k) &&
            decide (key (arr.getD (arr.length / 2) default) < key a)) = [] := by
          refine List.filter_eq_nil_iff.mpr ?_
          intro a _
          simp only [Bool.and_eq_true, decide_eq_true_eq, not_and]
          intro h1 h2
          rw [h1, hk] at h2
          exact absurd h2 (lt_irrefl _)
        rw [hA, hB, hC]
        simp
      · have hA : (arr.filter fun a => decide (key a = k) &&
            decide (key a < key (arr.getD (arr.length / 2) default))) = [] := by
          refine List.filter_eq_nil_iff.mpr ?_
          intro a _
          simp only [Bool.and_eq_true, decide_eq_true_eq, not_and]
          intro h1 h2
          rw [h1] at h2
          exact absurd hk (not_lt.mpr (le_of_lt h2))
        have hB : (arr.filter fun a => decide (key a = k) &&
            decide (key a = key (arr.getD (arr.length / 2) default))) = [] := by
          refine List.filter_eq_nil_iff.mpr ?_
          intro a _
          simp only [Bool.and_eq_true, decide_eq_true_eq, not_and]
          intro h1 h2
          rw [h1] at h2
          exact absurd h2.symm (ne_of_lt hk)
        have hC : (arr.filter fun a => decide (key a = k) &&
            decide (key (arr.getD (arr.length / 2) default) < key a)) =
            arr.filter fun a => decide (key a = k) := by
          refine List.filter_congr ?_
          intro a _
          cases hd : decide (key a = k) with
          | false => simp
          | true =>
            simp only [Bool.true_and]
            rw [decide_eq_true_eq] at hd
            rw [hd]
            exact decide_eq_true hk
        rw [hA, hB, hC]
        simp

/-- C4 (amended): `run_sort` is stable for `ascending = true` — the
subsequence of quotes whose sort key equals any fixed value is unchanged —
while for `ascending = false` the code reverses the ascending result, so
equal-key quotes appear in *reversed* relative input order. -/
theorem c4_sort_stability (attr : SortAttr) (arr : List Coin) (k : ℚ) :
    (run_sort attr true arr).filter (fun c => decide (attrVal attr c = k)) =
      arr.filter (fun c => decide (attrVal attr c = k)) ∧
    (run_sort attr false arr).filter (fun c => decide (attrVal attr c = k)) =
      (arr.filter (fun c => decide (attrVal attr c = k))).reverse := by
  constructor
  · simpa [run_sort] using
      quick_sort_filter_key (attrVal attr) k (arr.length) arr (le_refl _)
  · simp only [run_sort, Bool.false_eq_true, if_false]
    rw [List.filter_reverse]
    rw [quick_sort_filter_key (attrVal attr) k (arr.length) arr (le_refl _)]

/-- C4 counterexample: two distinct quotes with the same price; descending
sort returns them in reversed relative order, refuting stability for
`ascending = false`. -/
theorem c4_counterexample :
    attrVal SortAttr.priceUsd ⟨"A", "A", 1, 0, 0⟩ =
      attrVal SortAttr.priceUsd ⟨"B", "B", 1, 0, 0⟩ ∧
    (⟨"A", "A", 1, 0, 0⟩ : Coin) ≠ ⟨"B", "B", 1, 0, 0⟩ ∧
    run_sort SortAttr.priceUsd false [⟨"A", "A", 1, 0, 0⟩, ⟨"B", "B", 1, 0, 0⟩] =
      [⟨"B", "B", 1, 0, 0⟩, ⟨"A", "A", 1, 0, 0⟩] := by
  refine ⟨rfl, by decide, ?_⟩
  simp only [run_sort, Bool.false_eq_true, if_false]
  rw [quick_sort]
  norm_num [attrVal]
  rw [quick_sort]
  norm_num

theorem foldl_add_shift (cached : List Coin) (h : Holdings) (a : ℚ) :
    h.foldl (fun acc p => acc + lookupPrice cached p.1 * p.2) a =
      a + h.foldl (fun acc p => acc + lookupPrice cached p.1 * p.2) 0 := by
  induction h generalizing a with
  | nil => simp
  | cons p rest ih =>
    simp only [List.foldl_cons]
    rw [ih (a + lookupPrice cached p.1 * p.2), ih (0 + lookupPrice cached p.1 * p.2)]
    ring

/-- C6: the Leaderboard computes each account's net worth as balance plus
the sum over held symbols of amount times the snapshot price (a held symbol
with no quote in the snapshot contributing 0), and returns the accounts in
descending net-worth order: the ranking is a permutation of the per-account
`(username, netWorth)` pairs, sorted descending, and on the spec's example
(net worths 300 and 300.5) the order is B before A. -/
theorem c6_leaderboard :
    (∀ (users : List UserRecord) (cached : List Coin),
      (leaderboardRank users cached).Perm
        (users.map fun u => (u.username, netWorthOf cached u.balance u.holdings)) ∧
      List.Sorted (fun a b : String × ℚ => b.2 ≤ a.2) (leaderboardRank users cached)) ∧
    (∀ (cached : List Coin) (sym : String),
      cached.find? (fun c => c.symbol = sym) = none →
      ∀ (bal amt : ℚ) (h : Holdings),
        netWorthOf cached bal ((sym, amt) :: h) = netWorthOf cached bal h) ∧
    leaderboardRank [⟨"A", 300, []⟩, ⟨"B", 601/2, []⟩] [] =
      [("B", 601/2), ("A", 300)] := by
  refine ⟨?_, ?_, ?_⟩
  · intro users cached
    constructor
    · exact List.mergeSort_perm _ _
    · have hs := @List.sorted_mergeSort (String × ℚ)
        (fun a b => decide (b.2 ≤ a.2))
        (fun a b c hab hbc => by
          rw [decide_eq_true_eq] at hab hbc ⊢
          exact le_trans hbc hab)
        (fun a b => by
          rw [Bool.or_eq_true, decide_eq_true_eq, decide_eq_true_eq]
          exact le_total b.2 a.2)
        (users.map fun u => (u.username, netWorthOf cached u.balance u.holdings))
      exact List.Pairwise.imp (fun hab => of_decide_eq_true hab) hs
  · intro cached sym hnone bal amt h
    have hprice : lookupPrice cached sym = 0 := by
      simp only [lookupPrice, hnone]
    simp only [netWorthOf, List.foldl_cons]
    rw [foldl_add_shift cached h, hprice]
    ring_nf
    rw [foldl_add_shift cached h 0]
    ring
  · simp [leaderboardRank, netWorthOf, List.mergeSort]
    norm_num

/-- Witness for C6: a symbol held but absent from the (empty) snapshot
contributes nothing to the net worth. -/
theorem c6_leaderboard_witness :
    netWorthOf [] 100 [("BTC", 2)] = netWorthOf [] 100 [] :=
  c6_leaderboard.2.1 [] "BTC" rfl 100 2 []

end CryptoSim
